import Mathlib

set_option maxRecDepth 10000

/-!
Verification development for the Kara-Solutions business-information
extraction pipeline.

The definitions below are a shallow embedding of the Python sources
`scripts/data_cleaning.py` (class `TelegramDataCleaner`) and
`src/telegram_scraper/scraper.py` (class `TelegramScraper`).  Text is
modelled as `List Char` internally (Python `str` is a sequence of code
points, as is Lean's `String.data`).  Regular-expression application is
embedded as hand-rolled matchers implementing the leftmost, greedy,
non-overlapping semantics of Python's `re.findall` / `re.search` for the
concrete patterns appearing in the source.
-/

namespace Kara

/-- Whitespace as matched by Python's `\s` for `str` patterns and stripped
by `str.strip()`: ASCII whitespace, the C1 separators, and the Unicode
space separators. -/
def isSpaceChar (c : Char) : Bool :=
  c = ' ' || c = '\t' || c = '\n' || c = '\x0d' || c = '\x0b' || c = '\x0c' ||
  (0x1c ≤ c.toNat && c.toNat ≤ 0x1f) || c.toNat = 0x85 || c.toNat = 0xa0 ||
  c.toNat = 0x1680 || (0x2000 ≤ c.toNat && c.toNat ≤ 0x200a) ||
  c.toNat = 0x2028 || c.toNat = 0x2029 || c.toNat = 0x202f ||
  c.toNat = 0x205f || c.toNat = 0x3000

/-- ASCII decimal digit.  Python's `\d` additionally matches other scripts'
decimal digits; the texts handled by this code base use ASCII digits. -/
def isAsciiDigit (c : Char) : Bool :=
  '0' ≤ c && c ≤ '9'

/-- Unicode letters, restricted to the script blocks relevant to this code
base (Latin, Latin-1/extended, Greek, Cyrillic, Hebrew, Arabic, Ethiopic,
CJK, kana, Hangul).  This is the model of Python's `str.isalpha` and of the
letter part of `\w`. -/
def isLetterChar (c : Char) : Bool :=
  ('a' ≤ c && c ≤ 'z') || ('A' ≤ c && c ≤ 'Z') ||
  (0xc0 ≤ c.toNat && c.toNat ≤ 0xff && c.toNat ≠ 0xd7 && c.toNat ≠ 0xf7) ||
  (0x100 ≤ c.toNat && c.toNat ≤ 0x24f) ||
  (0x370 ≤ c.toNat && c.toNat ≤ 0x3ff && c.toNat ≠ 0x37e) ||
  (0x400 ≤ c.toNat && c.toNat ≤ 0x4ff) ||
  (0x5d0 ≤ c.toNat && c.toNat ≤ 0x5ea) ||
  (0x620 ≤ c.toNat && c.toNat ≤ 0x64a) ||
  (0x1200 ≤ c.toNat && c.toNat ≤ 0x137f) ||
  (0x3040 ≤ c.toNat && c.toNat ≤ 0x30ff) ||
  (0x4e00 ≤ c.toNat && c.toNat ≤ 0x9fff) ||
  (0xac00 ≤ c.toNat && c.toNat ≤ 0xd7a3)

/-- Word characters, Python `\w`: letters, decimal digits and underscore. -/
def isWordChar (c : Char) : Bool :=
  isLetterChar c || isAsciiDigit c || c = '_'

/-- The punctuation characters listed in the character class of
`clean_text` (data_cleaning.py line 100). -/
def punctChars : List Char :=
  ['.', ',', '!', '?', '@', '#', '$', '%', '&', '*', '(', ')', '-', '+',
   '=', '<', '>', '[', ']', '\x7b', '\x7d', '|', ';', ':', '\'', '"']

/-- Characters kept by the substitution
`re.sub(r'[^\w\sሀ-፿.,!?@#$%&*()\-+=<>\[\]\x7b\x7d|;:\'"\n]', '', text)`
in `clean_text` (data_cleaning.py line 100): word characters, whitespace,
the Ethiopic block, the listed punctuation, and the newline. -/
def keptChar (c : Char) : Bool :=
  isWordChar c || isSpaceChar c ||
  (0x1200 ≤ c.toNat && c.toNat ≤ 0x137f) ||
  punctChars.contains c || c = '\n'

/-- Drop leading characters satisfying `isSpaceChar` and then trailing
ones: the model of Python `str.strip()`. -/
def pstrip (l : List Char) : List Char :=
  ((l.dropWhile isSpaceChar).reverse.dropWhile isSpaceChar).reverse

/-- Auxiliary for `collapseRuns`: `flag` records whether the previous
character of the input belonged to a run of `p`-characters (in which case
further `p`-characters are dropped rather than replaced). -/
def collapseAux (p : Char → Bool) (r : Char) : Bool → List Char → List Char
  | _, [] => []
  | flag, c :: rest =>
    if p c then
      if flag then collapseAux p r true rest
      else r :: collapseAux p r true rest
    else c :: collapseAux p r false rest

/-- Replace every maximal nonempty run of characters satisfying `p` by the
single character `r`: the model of `re.sub(p+, r, text)`. -/
def collapseRuns (p : Char → Bool) (r : Char) (l : List Char) : List Char :=
  collapseAux p r false l

/-- The body of `TelegramDataCleaner.clean_text` (data_cleaning.py lines
96-105) on character lists: strip, collapse whitespace runs to a single
space, delete characters outside the allowed class, collapse newline runs,
strip again. -/
def cleanList (l : List Char) : List Char :=
  pstrip (collapseRuns (fun c => c = '\n') '\n'
    ((collapseRuns isSpaceChar ' ' (pstrip l)).filter keptChar))

/-- `TelegramDataCleaner.clean_text` (data_cleaning.py lines 83-105).  The
`if not text` guard returns `""` for the empty string; otherwise the four
substitution/strip steps run. -/
def clean_text (s : String) : String :=
  if s.data = [] then "" else String.mk (cleanList s.data)

/-- Case-insensitive prefix test (Python `re.IGNORECASE`; all letters
involved are ASCII, so `Char.toLower` is the right case folding). -/
def ciStartsWith : List Char → List Char → Bool
  | [], _ => true
  | _ :: _, [] => false
  | p :: ps, c :: cs => (p.toLower = c.toLower) && ciStartsWith ps cs

/-- Try a list of literal alternatives at the current position, in order;
return the length of the first alternative that matches (the ordered
alternation of a regex). -/
def tryLits (lits : List (List Char)) (l : List Char) : Option Nat :=
  match lits with
  | [] => none
  | p :: ps => if ciStartsWith p l then some p.length else tryLits ps l

/-- Length of the maximal prefix of `l` satisfying `p` (a greedy `p*`). -/
def countWhile (p : Char → Bool) (l : List Char) : Nat :=
  (l.takeWhile p).length

/-- `digitsAt l k` holds when `l` begins with at least `k` decimal digits
(the regex `\d` repeated exactly `k` times). -/
def digitsAt (l : List Char) (k : Nat) : Bool :=
  (l.take k).length = k && (l.take k).all isAsciiDigit

/-- Length of a greedy `(?:[.,]\d+)?` at the current position: a decimal
separator followed by at least one digit, or nothing. -/
def fracLen (l : List Char) : Nat :=
  match l with
  | [] => 0
  | c :: rest =>
    if c = '.' || c = ',' then
      let d := countWhile isAsciiDigit rest
      if d = 0 then 0 else 1 + d
    else 0

/-- Matcher for the `phone` pattern of data_cleaning.py line 74,
`(?:\+251|0)[79]\d{8}|\b\d{10}\b`, at the current position.  `prev` is the
character immediately before the position (for the word boundary `\b`);
the result is the length of the match.  Alternatives are tried in the
pattern's order. -/
def matchPhoneAt (prev : Option Char) (l : List Char) : Option Nat :=
  if l.take 4 = ['+', '2', '5', '1'] &&
      (match l[4]? with | some c => c = '7' || c = '9' | none => false) &&
      digitsAt (l.drop 5) 8 then
    some 13
  else if (match l[0]? with | some c => c = '0' | none => false) &&
      (match l[1]? with | some c => c = '7' || c = '9' | none => false) &&
      digitsAt (l.drop 2) 8 then
    some 10
  else if (match prev with | some c => !isWordChar c | none => true) &&
      digitsAt l 10 &&
      (match l[10]? with | some c => !isWordChar c | none => true) then
    some 10
  else none

/-- The four currency keywords of the `price` pattern (data_cleaning.py
line 75), in the pattern's alternation order. -/
def priceKws : List (List Char) :=
  [['ብ', 'ር'], ['b', 'i', 'r', 'r'], ['E', 'T', 'B'], ['$']]

/-- Matcher for the `price` pattern of data_cleaning.py line 75,
`(?:ብር|birr|ETB|\$)\s*\d+(?:[.,]\d+)?|\d+(?:[.,]\d+)?\s*(?:ብር|birr|ETB|\$)`
(IGNORECASE), at the current position.  The keyword-before-amount
alternative is tried first, as in the pattern. -/
def matchPriceAt (_prev : Option Char) (l : List Char) : Option Nat :=
  match tryLits priceKws l with
  | some k =>
    let s := countWhile isSpaceChar (l.drop k)
    let d := countWhile isAsciiDigit (l.drop (k + s))
    if d = 0 then matchPriceAmountFirst l
    else some (k + s + d + fracLen (l.drop (k + s + d)))
  | none => matchPriceAmountFirst l
where
  /-- The second alternative, `\d+(?:[.,]\d+)?\s*(?:ብር|birr|ETB|\$)`. -/
  matchPriceAmountFirst (l : List Char) : Option Nat :=
    let d := countWhile isAsciiDigit l
    if d = 0 then none
    else
      let f := fracLen (l.drop d)
      let s := countWhile isSpaceChar (l.drop (d + f))
      match tryLits priceKws (l.drop (d + f + s)) with
      | some k => some (d + f + s + k)
      | none => none

/-- Matcher for the `address` pattern of data_cleaning.py line 76,
`(?:አዲስ\s*አበባ|addis\s*ababa|ቦሌ|bole|ፒያሳ|piassa|መርካቶ|mercato)`
(IGNORECASE), at the current position, alternatives in the pattern's
order. -/
def matchAddressAt (_prev : Option Char) (l : List Char) : Option Nat :=
  if ciStartsWith ['አ', 'ዲ', 'ስ'] l then
    let s := countWhile isSpaceChar (l.drop 3)
    if ciStartsWith ['አ', 'በ', 'ባ'] (l.drop (3 + s)) then some (3 + s + 3)
    else matchAddressRest l
  else matchAddressRest l
where
  matchAddressRest (l : List Char) : Option Nat :=
    if ciStartsWith ['a', 'd', 'd', 'i', 's'] l then
      let s := countWhile isSpaceChar (l.drop 5)
      if ciStartsWith ['a', 'b', 'a', 'b', 'a'] (l.drop (5 + s)) then
        some (5 + s + 5)
      else
        tryLits [['ቦ', 'ሌ'], ['b', 'o', 'l', 'e'], ['ፒ', 'ያ', 'ሳ'],
          ['p', 'i', 'a', 's', 's', 'a'], ['መ', 'ር', 'ካ', 'ቶ'],
          ['m', 'e', 'r', 'c', 'a', 't', 'o']] l
    else
      tryLits [['ቦ', 'ሌ'], ['b', 'o', 'l', 'e'], ['ፒ', 'ያ', 'ሳ'],
        ['p', 'i', 'a', 's', 's', 'a'], ['መ', 'ር', 'ካ', 'ቶ'],
        ['m', 'e', 'r', 'c', 'a', 't', 'o']] l

/-- Matcher for the `time` pattern of data_cleaning.py line 77,
`\d{1,2}:\d{2}(?:\s*(?:AM|PM|ጠዋት|ማታ))?` (IGNORECASE): one or two digits
(greedy, so two are preferred), a colon, exactly two digits, then an
optional greedy day-period suffix. -/
def matchTimeAt (_prev : Option Char) (l : List Char) : Option Nat :=
  let base : Option Nat :=
    if digitsAt l 2 && (match l[2]? with | some c => c = ':' | none => false) &&
        digitsAt (l.drop 3) 2 then some 5
    else if digitsAt l 1 && (match l[1]? with | some c => c = ':' | none => false) &&
        digitsAt (l.drop 2) 2 then some 4
    else none
  match base with
  | none => none
  | some b =>
    let s := countWhile isSpaceChar (l.drop b)
    match tryLits [['A', 'M'], ['P', 'M'], ['ጠ', 'ዋ', 'ት'], ['ማ', 'ታ']]
        (l.drop (b + s)) with
    | some k => some (b + s + k)
    | none => some b

/-- The alternatives of the `delivery` pattern of data_cleaning.py line 78,
`(?:delivery|ዴሊቨሪ|መላክ|ማድረስ)` (IGNORECASE). -/
def dcDeliveryLits : List (List Char) :=
  [['d', 'e', 'l', 'i', 'v', 'e', 'r', 'y'], ['ዴ', 'ሊ', 'ቨ', 'ሪ'],
   ['መ', 'ላ', 'ክ'], ['ማ', 'ድ', 'ረ', 'ስ']]

/-- `re.search` as a boolean: does any of the literal alternatives occur at
some position of `l`? -/
def searchAnyLit (lits : List (List Char)) : List Char → Bool
  | [] => false
  | c :: rest => (tryLits lits (c :: rest)).isSome || searchAnyLit lits rest

/-- `re.findall` for a matcher `m`: scan left to right; at each position
emit the (nonempty) match if `m` succeeds and resume after it, otherwise
advance one character.  `fuel` bounds the recursion; `findall` supplies
`l.length`, which suffices because every step consumes at least one
character. -/
def scanFindAux (m : Option Char → List Char → Option Nat) :
    Nat → Option Char → List Char → List (List Char)
  | 0, _, _ => []
  | _ + 1, _, [] => []
  | fuel + 1, prev, c :: rest =>
    match m prev (c :: rest) with
    | some n =>
      let len := max n 1
      (c :: rest).take len ::
        scanFindAux m fuel ((c :: rest)[len - 1]?) ((c :: rest).drop len)
    | none => scanFindAux m fuel (some c) rest

/-- All non-overlapping leftmost matches of `m` in `l`, as the matched
character lists, in order of appearance (Python `pattern.findall(text)`
for patterns without capturing groups). -/
def findall (m : Option Char → List Char → Option Nat) (l : List Char) :
    List (List Char) :=
  scanFindAux m l.length none l

/-- `', '.join(matches)` over matched character lists. -/
def joinComma (ms : List (List Char)) : String :=
  String.intercalate ", " (ms.map String.mk)

/-- The `BusinessExtraction` dataclass of data_cleaning.py lines 43-52:
seven optional string fields, all defaulting to null. -/
structure BusinessExtraction where
  business_name : Option String := none
  product_name : Option String := none
  price : Option String := none
  contact_info : Option String := none
  address : Option String := none
  opening_hours : Option String := none
  delivery_info : Option String := none
deriving DecidableEq, Repr

/-- Length qualification of a (stripped) line in the name heuristic of
data_cleaning.py line 150: `len(line) > 5 and len(line) < 100`. -/
def lineQual (l : List Char) : Bool :=
  5 < l.length && l.length < 100

/-- `any(char.isalpha() for char in line)` (data_cleaning.py line 151). -/
def hasAlpha (l : List Char) : Bool :=
  l.any isLetterChar

/-- The loop of data_cleaning.py lines 148-154 over the first three lines:
strip the line; if its length is in bounds, assign it to `business_name`
when that is unset and the line has a letter, otherwise to `product_name`
when that is unset and the line differs from `business_name`. -/
def namesLoop : List (List Char) → Option (List Char) → Option (List Char) →
    Option (List Char) × Option (List Char)
  | [], bn, pn => (bn, pn)
  | line :: rest, bn, pn =>
    let ls := pstrip line
    if lineQual ls then
      if bn.isNone && hasAlpha ls then namesLoop rest (some ls) pn
      else if pn.isNone && bn ≠ some ls then namesLoop rest bn (some ls)
      else namesLoop rest bn pn
    else namesLoop rest bn pn

/-- Python `str.split(sep)` for a single-character separator: all segments,
empty ones included. -/
def splitOnChar (sep : Char) : List Char → List (List Char)
  | [] => [[]]
  | c :: rest =>
    match splitOnChar sep rest with
    | [] => [[c]]
    | h :: t => if c = sep then [] :: h :: t else (c :: h) :: t

/-- The business-name/product-name heuristic of data_cleaning.py lines
146-154: run `namesLoop` on the first three `'\n'`-separated lines. -/
def extractNames (l : List Char) : Option (List Char) × Option (List Char) :=
  namesLoop ((splitOnChar '\n' l).take 3) none none

/-- `TelegramDataCleaner.extract_business_info` (data_cleaning.py lines
107-156): the falsy guard, then the five pattern applications (findall
joined with `', '` for phone/price/address/time, presence marker for
delivery) and the line-based name heuristic. -/
def extract_business_info (s : String) : BusinessExtraction :=
  if s.data = [] then {} else
  let t := s.data
  let phones := findall matchPhoneAt t
  let prices := findall matchPriceAt t
  let addrs := findall matchAddressAt t
  let times := findall matchTimeAt t
  { business_name := (extractNames t).1.map String.mk
    product_name := (extractNames t).2.map String.mk
    price := if prices = [] then none else some (joinComma prices)
    contact_info := if phones = [] then none else some (joinComma phones)
    address := if addrs = [] then none else some (joinComma addrs)
    opening_hours := if times = [] then none else some (joinComma times)
    delivery_info :=
      if searchAnyLit dcDeliveryLits t then some "Delivery available"
      else none }

/-- The record-emission gate of `TelegramDataCleaner.save_to_database`
(data_cleaning.py lines 376-377):
`any([business_name, product_name, price, contact_info])` — only four of
the seven fields are consulted. -/
def dcGate (e : BusinessExtraction) : Bool :=
  e.business_name.isSome || e.product_name.isSome ||
  e.price.isSome || e.contact_info.isSome

/-- Whether `save_to_database` (data_cleaning.py lines 374-388) creates a
`BusinessInfo` row for a new message with the given cleaned text: the text
must be truthy (non-empty) and the extraction must pass `dcGate`.  The
duplicate-message lookup, which only suppresses re-insertion, is outside
this model. -/
def saveEmits (msgText : String) : Bool :=
  if msgText.data = [] then false else dcGate (extract_business_info msgText)

/-- Character-wise `str.lower()` (ASCII case folding; the keywords and
texts involved contain no character with a non-trivial non-ASCII case
mapping). -/
def lowerL (l : List Char) : List Char :=
  l.map Char.toLower

/-- Python's substring test `pat in hay`. -/
def containsSub (hay pat : List Char) : Bool :=
  match hay with
  | [] => pat.isEmpty
  | _ :: t => pat.isPrefixOf hay || containsSub t pat

/-- The `delivery_keywords` list of `TelegramScraper.extract_business_info`
(scraper.py line 171), in order. -/
def scraperDeliveryKws : List (List Char) :=
  [['d', 'e', 'l', 'i', 'v', 'e', 'r', 'y'],
   ['s', 'h', 'i', 'p', 'p', 'i', 'n', 'g'],
   ['t', 'r', 'a', 'n', 's', 'p', 'o', 'r', 't'],
   ['መ', 'ላ', 'ክ'], ['ማ', 'ድ', 'ረ', 'ስ']]

/-- The delivery-information extraction of
`TelegramScraper.extract_business_info` (scraper.py lines 170-180): take
the first keyword (in list order) contained case-insensitively in the
text; split the text on `'.'`; return the first segment containing that
keyword, stripped.  The two `break` statements make both loops
first-match. -/
def scraperDelivery (t : List Char) : Option (List Char) :=
  match scraperDeliveryKws.find? (fun k => containsSub (lowerL t) (lowerL k)) with
  | none => none
  | some k =>
    ((splitOnChar '.' t).find?
      (fun s => containsSub (lowerL s) (lowerL k))).map pstrip

/-- A Python value as far as the falsy guards and `isinstance` checks of
the extractors observe it: `None`, a string, or an integer (standing for
every truthy non-string type, all of which reach the same regex
`TypeError`). -/
inductive PyVal where
  | pynone
  | pystr (s : String)
  | pyint (n : Int)
deriving DecidableEq, Repr

/-- Python truthiness for the modelled values. -/
def pyFalsy : PyVal → Bool
  | .pynone => true
  | .pystr s => s.data.isEmpty
  | .pyint n => n = 0

/-- The exceptions the extractors can raise on non-string input. -/
inductive PyErr where
  | typeError
  | attributeError
deriving DecidableEq, Repr

/-- `TelegramDataCleaner.extract_business_info` applied to an arbitrary
Python value: the `if not text` guard (data_cleaning.py line 117) returns
an all-null record for every falsy value; a truthy string is processed;
any other truthy value raises `TypeError` when the first pattern's
`findall` receives a non-string. -/
def extract_business_info_py (v : PyVal) : Except PyErr BusinessExtraction :=
  if pyFalsy v then .ok {}
  else
    match v with
    | .pystr s => .ok (extract_business_info s)
    | _ => .error .typeError

/-- `TelegramDataCleaner.clean_text` applied to an arbitrary Python value:
the `if not text` guard (data_cleaning.py line 93) returns `""` for every
falsy value; a truthy non-string raises `AttributeError` at
`text.strip()`. -/
def clean_text_py (v : PyVal) : Except PyErr String :=
  if pyFalsy v then .ok ""
  else
    match v with
    | .pystr s => .ok (clean_text s)
    | _ => .error .attributeError

/-- One element of a message's `text` list (Telegram text entities):
a plain string, a dict carrying a `text` key, or anything else. -/
inductive TextPart where
  | strPart (s : String)
  | dictPart (s : String)
  | otherPart
deriving DecidableEq, Repr

/-- The `text` field of a raw message as `process_json_file` inspects it:
a string, a list of parts, a non-string non-list value (modelled by an
integer), or absent. -/
inductive MsgText where
  | strText (s : String)
  | listText (parts : List TextPart)
  | intText (n : Int)
  | absent
deriving DecidableEq, Repr

/-- A raw message, restricted to the fields that determine the cleaned
text.  The remaining metadata fields read by `process_json_file` (date,
views, media, ...) are read with defaulting `.get` calls and cannot raise
for these inputs; they are independent of the text handling and omitted. -/
structure Msg where
  id : Nat
  text : MsgText
deriving DecidableEq, Repr

/-- The output row of the message loop, restricted to the modelled
fields. -/
structure MsgRecord where
  message_id : Nat
  message_text : String
deriving DecidableEq, Repr

/-- The string contributed by one text part (data_cleaning.py lines
198-202): plain strings and dicts with a `text` key contribute, everything
else is skipped. -/
def partText : TextPart → Option String
  | .strPart s => some s
  | .dictPart s => some s
  | .otherPart => none

/-- The `message_text` computation of `process_json_file` (data_cleaning.py
lines 191-203): a string is cleaned; a list has its string/dict parts
joined with `' '` and cleaned; any other value (and an absent field)
leaves the initial `''` — the `isinstance` checks match no branch and no
exception is raised. -/
def messageTextOf : MsgText → String
  | .strText s => clean_text s
  | .listText ps => clean_text (String.intercalate " " (ps.filterMap partText))
  | .intText _ => ""
  | .absent => ""

/-- The record built for one message by the loop body of
`process_json_file` (data_cleaning.py lines 189-240), restricted to the
modelled fields. -/
def toRecord (m : Msg) : MsgRecord :=
  ⟨m.id, messageTextOf m.text⟩

/-- The message loop of `process_json_file` (data_cleaning.py lines
188-271): every message is appended to `messages_data`.  The surrounding
`try/except` only skips a message whose processing raises; no modelled
input raises (in particular a non-string, non-list `text` does not), and
the handler does not count the messages it skips. -/
def processMessages (msgs : List Msg) : List MsgRecord :=
  msgs.map toRecord

/-- Modelled from the claim's wording, for comparison with the code: the
output alphabet that claim C8 asserts for the normalizer — Latin letters
and digits, the listed punctuation, whitespace, and the Ethiopic block
U+1200-U+137F. -/
def specAllowedChar (c : Char) : Bool :=
  ('a' ≤ c && c ≤ 'z') || ('A' ≤ c && c ≤ 'Z') || isAsciiDigit c ||
  punctChars.contains c || isSpaceChar c ||
  (0x1200 ≤ c.toNat && c.toNat ≤ 0x137f)

/-- The input text of concrete scenario 1 of the specification (§8). -/
def scenario1 : String :=
  "Addis Medical Center\nParacetamol tablets\nCall 0911223344, price 150 birr, delivery available in Bole area, open 9:00 AM"

/-- `Bool` test that a character list neither starts nor ends with
whitespace. -/
def edgeSpaceFree (l : List Char) : Bool :=
  (match l.head? with
   | some c => !isSpaceChar c
   | none => true) &&
  (match l.getLast? with
   | some c => !isSpaceChar c
   | none => true)

/-- The pair relation used for runs: no two adjacent characters both
satisfy `p`. -/
def NoPair (p : Char → Bool) (a c : Char) : Prop :=
  ¬(p a = true ∧ p c = true)

/-- The first three lines of a text, each stripped — the line sequence the
name heuristic of data_cleaning.py lines 147-149 inspects. -/
def nameLines (t : List Char) : List (List Char) :=
  ((splitOnChar '\n' t).take 3).map pstrip

/-- Strict left-biased choice on options (the evolution of a write-once
slot: once set it never changes). -/
def obOr (a b : Option (List Char)) : Option (List Char) :=
  match a with
  | some x => some x
  | none => b

/-- The value held by the `business_name` slot when the name loop reaches
position `i` of the (already stripped) line list `L`, starting from an
empty slot: the first earlier line of qualified length containing a
letter. -/
def bnAt (L : List (List Char)) (i : Nat) : Option (List Char) :=
  (L.take i).find? (fun l => lineQual l && hasAlpha l)

/-- Whether the `product_name` branch of the name loop fires at position
`i` of the (already stripped) line list `L` when the `business_name` slot
started as `bn`: the line must have qualified length and not be claimed by
the `business_name` branch — with the slot still empty that means the line
has no letter, with the slot holding `b` it means the line differs from
`b`. -/
def prodFiresFrom (bn : Option (List Char)) (L : List (List Char))
    (i : Nat) : Bool :=
  match L[i]? with
  | none => false
  | some l =>
    lineQual l &&
      (match obOr bn (bnAt L i) with
       | none => !hasAlpha l
       | some b => b != l)

/-- `prodFiresFrom` for the actual run, which starts with both slots
empty. -/
def prodFires (L : List (List Char)) (i : Nat) : Bool :=
  prodFiresFrom none L i

theorem mem_collapseAux {p : Char → Bool} {r : Char} {b : Bool}
    {l : List Char} {c : Char} (h : c ∈ collapseAux p r b l) :
    c = r ∨ (c ∈ l ∧ p c = false) := by
  induction l generalizing b with
  | nil => simp [collapseAux] at h
  | cons a rest ih =>
    by_cases hp : p a
    · cases b with
      | true =>
        simp only [collapseAux, hp, if_true] at h
        rcases ih h with h' | ⟨hm, hf⟩
        · exact Or.inl h'
        · exact Or.inr ⟨List.mem_cons_of_mem _ hm, hf⟩
      | false =>
        simp only [collapseAux, hp, if_true] at h
        rcases List.mem_cons.mp h with h' | h'
        · exact Or.inl h'
        · rcases ih h' with h'' | ⟨hm, hf⟩
          · exact Or.inl h''
          · exact Or.inr ⟨List.mem_cons_of_mem _ hm, hf⟩
    · simp only [collapseAux, hp, if_false, Bool.false_eq_true] at h
      rcases List.mem_cons.mp h with h' | h'
      · subst h'
        exact Or.inr ⟨List.mem_cons_self _ _, by simpa using hp⟩
      · rcases ih h' with h'' | ⟨hm, hf⟩
        · exact Or.inl h''
        · exact Or.inr ⟨List.mem_cons_of_mem _ hm, hf⟩

theorem head?_collapseAux_true {p : Char → Bool} {r : Char}
    {l : List Char} {c : Char}
    (h : (collapseAux p r true l).head? = some c) : p c = false := by
  induction l with
  | nil => simp [collapseAux] at h
  | cons a rest ih =>
    by_cases hp : p a
    · simp only [collapseAux, hp, if_true] at h
      exact ih h
    · simp only [collapseAux, hp, if_false, Bool.false_eq_true,
        List.head?_cons, Option.some.injEq] at h
      subst h
      simpa using hp

theorem chain'_collapseAux (p : Char → Bool) (r : Char) :
    ∀ (l : List Char) (b : Bool),
      List.Chain' (NoPair p) (collapseAux p r b l) := by
  intro l
  induction l with
  | nil => intro b; simp [collapseAux]
  | cons a rest ih =>
    intro b
    by_cases hp : p a
    · cases b with
      | true => simpa [collapseAux, hp] using ih true
      | false =>
        simp only [collapseAux, hp, if_true]
        refine List.chain'_cons'.mpr ⟨?_, ih true⟩
        intro y hy
        have : p y = false := head?_collapseAux_true (by simpa using hy)
        simp [NoPair, this]
    · simp only [collapseAux, hp, if_false, Bool.false_eq_true]
      refine List.chain'_cons'.mpr ⟨?_, ih false⟩
      intro y _
      simp [NoPair, hp]

theorem collapseAux_eq_self {p : Char → Bool} {r : Char} :
    ∀ {l : List Char} {b : Bool}, List.Chain' (NoPair p) l →
      (∀ c ∈ l, p c = true → c = r) →
      (b = true → ∀ c, l.head? = some c → p c = false) →
      collapseAux p r b l = l := by
  intro l
  induction l with
  | nil => intro b _ _ _; simp [collapseAux]
  | cons a rest ih =>
    intro b hch hall hhead
    have hch' := List.chain'_cons'.mp hch
    by_cases hp : p a
    · cases b with
      | true =>
        have := hhead rfl a (by simp)
        simp [hp] at this
      | false =>
        have ha : a = r := hall a (by simp) hp
        simp only [collapseAux, hp, if_true, Bool.false_eq_true, if_false]
        rw [ih hch'.2 (fun c hc h' => hall c (List.mem_cons_of_mem _ hc) h')
          (fun _ c hc => by
            have := hch'.1 c hc
            simp only [NoPair, hp, true_and] at this
            exact Bool.eq_false_iff.mpr this), ha]
    · simp only [collapseAux, hp, if_false, Bool.false_eq_true]
      rw [ih hch'.2 (fun c hc h' => hall c (List.mem_cons_of_mem _ hc) h')
        (fun hb => by cases hb)]

theorem collapseAux_of_no_p {p : Char → Bool} {r : Char} :
    ∀ {l : List Char} {b : Bool}, (∀ c ∈ l, p c = false) →
      collapseAux p r b l = l := by
  intro l
  induction l with
  | nil => intro b _; simp [collapseAux]
  | cons a rest ih =>
    intro b hall
    have hp : p a = false := hall a (by simp)
    simp only [collapseAux, hp, Bool.false_eq_true, if_false]
    rw [ih (fun c hc => hall c (List.mem_cons_of_mem _ hc))]

theorem head?_dropWhile {p : Char → Bool} :
    ∀ {l : List Char} {c : Char}, (l.dropWhile p).head? = some c →
      p c = false := by
  intro l
  induction l with
  | nil => intro c h; simp [List.dropWhile] at h
  | cons a rest ih =>
    intro c h
    by_cases hp : p a
    · rw [List.dropWhile_cons_of_pos hp] at h
      exact ih h
    · rw [List.dropWhile_cons_of_neg hp] at h
      simp only [List.head?_cons, Option.some.injEq] at h
      subst h
      simpa using hp

theorem head?_of_prefixed {l₁ l₂ : List Char} {c : Char} (h : l₁ <+: l₂)
    (hc : l₁.head? = some c) : l₂.head? = some c := by
  rcases h with ⟨t, rfl⟩
  cases l₁ with
  | nil => simp at hc
  | cons a r => simpa using hc

theorem mem_pstrip {l : List Char} {c : Char} (h : c ∈ pstrip l) :
    c ∈ l := by
  unfold pstrip at h
  rw [List.mem_reverse] at h
  have h₁ := (List.dropWhile_suffix (l := (l.dropWhile isSpaceChar).reverse)
    isSpaceChar).subset h
  rw [List.mem_reverse] at h₁
  exact (List.dropWhile_suffix isSpaceChar).subset h₁

theorem pstrip_head? {l : List Char} {c : Char}
    (h : (pstrip l).head? = some c) : isSpaceChar c = false := by
  unfold pstrip at h
  have hpre : ((l.dropWhile isSpaceChar).reverse.dropWhile isSpaceChar).reverse
      <+: l.dropWhile isSpaceChar := by
    have := List.dropWhile_suffix (l := (l.dropWhile isSpaceChar).reverse)
      isSpaceChar
    rw [← List.reverse_prefix] at this
    simpa using this
  exact head?_dropWhile (head?_of_prefixed hpre h)

theorem pstrip_getLast? {l : List Char} {c : Char}
    (h : (pstrip l).getLast? = some c) : isSpaceChar c = false := by
  unfold pstrip at h
  rw [List.getLast?_reverse] at h
  exact head?_dropWhile h

theorem dropWhile_eq_self_of_head {p : Char → Bool} {l : List Char}
    (h : ∀ c, l.head? = some c → p c = false) :
    l.dropWhile p = l := by
  cases l with
  | nil => simp
  | cons a rest =>
    have := h a (by simp)
    simp [List.dropWhile_cons, this]

theorem pstrip_eq_self {l : List Char}
    (h₁ : ∀ c, l.head? = some c → isSpaceChar c = false)
    (h₂ : ∀ c, l.getLast? = some c → isSpaceChar c = false) :
    pstrip l = l := by
  unfold pstrip
  rw [dropWhile_eq_self_of_head h₁]
  rw [dropWhile_eq_self_of_head (fun c hc => h₂ c (by
    rwa [List.head?_reverse] at hc))]
  exact List.reverse_reverse l

theorem pstrip_idem (l : List Char) : pstrip (pstrip l) = pstrip l :=
  pstrip_eq_self (fun _ h => pstrip_head? h) (fun _ h => pstrip_getLast? h)

theorem spaces_collapseWs {l : List Char} {c : Char}
    (h : c ∈ collapseRuns isSpaceChar ' ' l) (hs : isSpaceChar c = true) :
    c = ' ' := by
  rcases mem_collapseAux h with h' | ⟨_, hf⟩
  · exact h'
  · rw [hs] at hf
    cases hf

theorem cleanList_eq (l : List Char) :
    cleanList l =
      pstrip ((collapseRuns isSpaceChar ' ' (pstrip l)).filter keptChar) := by
  unfold cleanList
  congr 1
  apply collapseAux_of_no_p
  intro c hc
  have hbase : c ∈ collapseRuns isSpaceChar ' ' (pstrip l) :=
    (List.mem_filter.mp hc).1
  by_cases hnl : c = '\n'
  · subst hnl
    have : ('\n' : Char) = ' ' :=
      spaces_collapseWs hbase (by decide)
    cases this
  · simpa using hnl

theorem mem_cleanList_kept {l : List Char} {c : Char}
    (h : c ∈ cleanList l) : keptChar c = true := by
  rw [cleanList_eq] at h
  exact (List.mem_filter.mp (mem_pstrip h)).2

theorem mem_cleanList_space {l : List Char} {c : Char}
    (h : c ∈ cleanList l) (hs : isSpaceChar c = true) : c = ' ' := by
  rw [cleanList_eq] at h
  exact spaces_collapseWs (List.mem_filter.mp (mem_pstrip h)).1 hs

theorem chain'_pstrip {p : Char → Bool} {l : List Char}
    (h : List.Chain' (NoPair p) l) :
    List.Chain' (NoPair p) (pstrip l) := by
  unfold pstrip
  have h₁ : List.Chain' (NoPair p) (l.dropWhile isSpaceChar) :=
    h.suffix (List.dropWhile_suffix isSpaceChar)
  have h₂ : List.Chain' (NoPair p) (l.dropWhile isSpaceChar).reverse := by
    rw [List.chain'_reverse]
    exact h₁.imp (fun a c hac => by
      simp only [flip, NoPair] at *
      tauto)
  have h₃ := h₂.suffix (List.dropWhile_suffix isSpaceChar)
  rw [List.chain'_reverse]
  exact h₃.imp (fun a c hac => by
    simp only [flip, NoPair] at *
    tauto)

theorem collapseRuns_eq_self {p : Char → Bool} {r : Char} {l : List Char}
    (hch : List.Chain' (NoPair p) l)
    (hall : ∀ c ∈ l, p c = true → c = r) :
    collapseRuns p r l = l :=
  collapseAux_eq_self hch hall (fun hb => by cases hb)

theorem cleanList_of_allKept {l : List Char}
    (h : ∀ c ∈ l, keptChar c = true) :
    cleanList l = pstrip (collapseRuns isSpaceChar ' ' (pstrip l)) := by
  rw [cleanList_eq]
  congr 1
  apply List.filter_eq_self.mpr
  intro c hc
  rcases mem_collapseAux hc with rfl | ⟨hm, _⟩
  · decide
  · exact h c (mem_pstrip hm)

theorem cleanList_fixpoint {l : List Char}
    (h : ∀ c ∈ l, keptChar c = true) :
    cleanList (pstrip (collapseRuns isSpaceChar ' ' (pstrip l))) =
      pstrip (collapseRuns isSpaceChar ' ' (pstrip l)) := by
  have hkept : ∀ c ∈ pstrip (collapseRuns isSpaceChar ' ' (pstrip l)),
      keptChar c = true := by
    intro c hc
    rcases mem_collapseAux (mem_pstrip hc) with rfl | ⟨hm, _⟩
    · decide
    · exact h c (mem_pstrip hm)
  have hsp : ∀ c ∈ pstrip (collapseRuns isSpaceChar ' ' (pstrip l)),
      isSpaceChar c = true → c = ' ' := by
    intro c hc hs
    exact spaces_collapseWs (mem_pstrip hc) hs
  have hch : List.Chain' (NoPair isSpaceChar)
      (pstrip (collapseRuns isSpaceChar ' ' (pstrip l))) :=
    chain'_pstrip (chain'_collapseAux isSpaceChar ' ' (pstrip l) false)
  rw [cleanList_of_allKept hkept, pstrip_idem,
    collapseRuns_eq_self hch hsp, pstrip_idem]

/-- Claim C8 — corrected form.  Every character of the normalizer's output
is in the kept class of `clean_text`'s character filter: a word character
of any script (letter, digit, underscore), whitespace, the Ethiopic block,
or the listed punctuation.  (The original claim's restriction of letters
to Latin is refuted by `c8_counterexample`.) -/
theorem c8_amended_kept (s : String) :
    (clean_text s).data.all keptChar = true := by
  unfold clean_text
  by_cases h : s.data = []
  · rw [if_pos h]
    decide
  · rw [if_neg h]
    exact List.all_eq_true.mpr fun c hc => mem_cleanList_kept hc

/-- Claim C8 — counterexample to the original claim: the Cyrillic letter
`б` is a Unicode word character, so `clean_text` keeps it, yet it is
neither a Latin letter/digit, listed punctuation, whitespace, nor in the
Ethiopic block. -/
theorem c8_counterexample :
    clean_text "aбc" = "aбc" ∧
      ((clean_text "aбc").data.contains 'б') = true ∧
      specAllowedChar 'б' = false ∧
      clean_text "a😀b" = "ab" := by
  refine ⟨by decide, by decide, by decide, by decide⟩

/-- Claim C2 — the code's actual behaviour at the spec's scenario-1 input.
`clean_text` first collapses every whitespace run — newlines included — to
a single space (data_cleaning.py line 97), so no newline survives
normalization (last conjunct); scenario 1 therefore reaches the line
heuristic as a single 119-character line, which exceeds the length bound,
and both name fields come out null instead of the claimed
"Addis Medical Center" / "Paracetamol tablets". -/
theorem c2_code_behavior :
    clean_text scenario1 =
      "Addis Medical Center Paracetamol tablets Call 0911223344, price 150 birr, delivery available in Bole area, open 9:00 AM" ∧
    (extract_business_info (clean_text scenario1)).business_name = none ∧
    (extract_business_info (clean_text scenario1)).product_name = none ∧
    ∀ s : String, (clean_text s).data.all (fun c => c != '\n') = true := by
  refine ⟨by decide, by decide, by decide, ?_⟩
  intro s
  apply List.all_eq_true.mpr
  intro c hc
  apply bne_iff_ne.mpr
  intro hnl
  subst hnl
  unfold clean_text at hc
  by_cases h : s.data = []
  · rw [if_pos h] at hc
    simp at hc
  · rw [if_neg h] at hc
    have : ('\n' : Char) = ' ' := mem_cleanList_space hc (by decide)
    cases this

theorem edgeSpaceFree_of_head_last {m : List Char}
    (h₁ : ∀ c, m.head? = some c → isSpaceChar c = false)
    (h₂ : ∀ c, m.getLast? = some c → isSpaceChar c = false) :
    edgeSpaceFree m = true := by
  unfold edgeSpaceFree
  rcases hm : m.head? with _ | c <;> rcases hm' : m.getLast? with _ | d <;>
    simp [hm, hm', h₁, h₂]

/-- Claim C7 — corrected form.  The normalizer's output never starts or
ends with whitespace, and normalization is idempotent on strings all of
whose characters survive the character filter; unrestricted idempotence
fails (see `c7_counterexample`) because deleting a disallowed character
can merge two previously separated spaces after the whitespace-collapsing
pass has already run. -/
theorem c7_amended_normalize (s : String) :
    edgeSpaceFree (clean_text s).data = true ∧
      (s.data.all keptChar = true →
        clean_text (clean_text s) = clean_text s) := by
  constructor
  · unfold clean_text
    by_cases h : s.data = []
    · rw [if_pos h]
      decide
    · rw [if_neg h]
      exact edgeSpaceFree_of_head_last (fun _ hc => pstrip_head? (by
          rwa [cleanList_eq] at hc))
        (fun _ hc => pstrip_getLast? (by rwa [cleanList_eq] at hc))
  · intro hall
    have hk : ∀ c ∈ s.data, keptChar c = true := List.all_eq_true.mp hall
    by_cases h : s.data = []
    · have hs : clean_text s = "" := by
        rw [clean_text, if_pos h]
      rw [hs]
      decide
    · have hs : clean_text s =
          String.mk (pstrip (collapseRuns isSpaceChar ' ' (pstrip s.data))) := by
        rw [clean_text, if_neg h, cleanList_of_allKept hk]
      rw [hs]
      by_cases h2 : pstrip (collapseRuns isSpaceChar ' ' (pstrip s.data)) = []
      · rw [h2]
        decide
      · rw [clean_text,
          if_neg (show ¬((String.mk (pstrip (collapseRuns isSpaceChar ' '
            (pstrip s.data)))).data = []) from h2)]
        exact congrArg String.mk (cleanList_fixpoint hk)

/-- Claim C7 — counterexample to unrestricted idempotence: `'/'` is
deleted by the character filter after whitespace collapsing, leaving the
double space `"a  b"`, which a second normalization pass collapses to
`"a b"`. -/
theorem c7_counterexample :
    clean_text "a / b" = "a  b" ∧
      clean_text (clean_text "a / b") = "a b" ∧
      (clean_text (clean_text "a / b") == clean_text "a / b") = false := by
  refine ⟨by decide, by decide, by decide⟩

/-- Claim C7 — witness instantiating the conditional idempotence at the
all-kept string `"ab c"`. -/
theorem c7_witness :
    "ab c".data.all keptChar = true ∧
      clean_text (clean_text "ab c") = clean_text "ab c" :=
  ⟨by decide, (c7_amended_normalize "ab c").2 (by decide)⟩

theorem findall_nil (m : Option Char → List Char → Option Nat) :
    findall m [] = [] := rfl

theorem searchAnyLit_nil (lits : List (List Char)) :
    searchAnyLit lits [] = false := rfl

/-- Claim C1 — corrected form.  `save_to_database` of the data-cleaning
pipeline creates a `BusinessInfo` row exactly when the message text is
non-empty and at least one of the four fields `business_name`,
`product_name`, `price`, `contact_info` is non-null; the three fields
`address`, `opening_hours`, `delivery_info` are not consulted by the gate
(see `c1_counterexample`). -/
theorem c1_amended_gate (s : String) :
    saveEmits s = true ↔
      (s.data ≠ [] ∧
        ((extract_business_info s).business_name ≠ none ∨
          (extract_business_info s).product_name ≠ none ∨
          (extract_business_info s).price ≠ none ∨
          (extract_business_info s).contact_info ≠ none)) := by
  by_cases h : s.data = []
  · simp [saveEmits, h]
  · simp only [saveEmits, dcGate, h, if_neg, Bool.or_eq_true,
      Option.isSome_iff_ne_none, ne_eq, not_false_eq_true, true_and]
    tauto

/-- Claim C1 — witness: a text carrying only a phone number passes the
gate through its `contact_info` field. -/
theorem c1_witness : saveEmits "0912345678" = true :=
  (c1_amended_gate "0912345678").mpr
    ⟨by decide, Or.inr (Or.inr (Or.inr (by decide)))⟩

/-- Claim C1 — counterexample to the original claim: for the text
`"Bole"` the extraction's only non-null field is `address`, yet the
data-cleaning gate discards the record, because it tests only
`business_name`, `product_name`, `price` and `contact_info`
(data_cleaning.py lines 376-377). -/
theorem c1_counterexample :
    (extract_business_info "Bole").address = some "Bole" ∧
      (extract_business_info "Bole").business_name = none ∧
      (extract_business_info "Bole").product_name = none ∧
      (extract_business_info "Bole").price = none ∧
      (extract_business_info "Bole").contact_info = none ∧
      (extract_business_info "Bole").opening_hours = none ∧
      (extract_business_info "Bole").delivery_info = none ∧
      saveEmits "Bole" = false := by
  decide

/-- Claim C4 — corrected form.  The data-cleaning price extractor is
all-matches-joined, not first-match: the two conventions live in one
alternation scanned by `findall`, and the resulting field is null exactly
when there is no match, and otherwise joins every match with `', '`
(data_cleaning.py lines 128-130). -/
theorem c4_amended_price (s : String) :
    ((extract_business_info s).price = none ↔
      findall matchPriceAt s.data = []) ∧
      (findall matchPriceAt s.data ≠ [] →
        (extract_business_info s).price =
          some (joinComma (findall matchPriceAt s.data))) := by
  by_cases h : s.data = []
  · rw [h]
    simp [extract_business_info, h, findall_nil]
  · constructor
    · by_cases hp : findall matchPriceAt s.data = [] <;>
        simp [extract_business_info, h, hp]
    · intro hp
      simp [extract_business_info, h, hp]

/-- Claim C4 — witness instantiating the all-matches-joined behaviour. -/
theorem c4_witness :
    (extract_business_info "100 birr 200 birr").price =
      some (joinComma (findall matchPriceAt "100 birr 200 birr".data)) :=
  (c4_amended_price "100 birr 200 birr").2 (by decide)

/-- Claim C4 — counterexample to the original claim: on
`"100 birr 200 birr"` the pattern has two matches and the extractor
returns them joined with `', '`, not the single first match
`"100 birr"`. -/
theorem c4_counterexample :
    findall matchPriceAt "100 birr 200 birr".data =
      ["100 birr".data, "200 birr".data] ∧
      (extract_business_info "100 birr 200 birr").price =
        some "100 birr, 200 birr" ∧
      ((some "100 birr, 200 birr" : Option String) == some "100 birr")
        = false := by
  decide

/-- Claim C10 — corrected form.  Each pattern-based field of the
data-cleaning extractor is determined by its own pattern's output alone:
two texts on which a pattern produces the same matches receive the same
value for that pattern's field, whatever else differs.  The line-based
`business_name`/`product_name` fields have no such independence (see
`c10_counterexample`). -/
theorem c10_amended_independence (s₁ s₂ : String) :
    (findall matchPhoneAt s₁.data = findall matchPhoneAt s₂.data →
      (extract_business_info s₁).contact_info =
        (extract_business_info s₂).contact_info) ∧
    (findall matchPriceAt s₁.data = findall matchPriceAt s₂.data →
      (extract_business_info s₁).price = (extract_business_info s₂).price) ∧
    (findall matchAddressAt s₁.data = findall matchAddressAt s₂.data →
      (extract_business_info s₁).address =
        (extract_business_info s₂).address) ∧
    (findall matchTimeAt s₁.data = findall matchTimeAt s₂.data →
      (extract_business_info s₁).opening_hours =
        (extract_business_info s₂).opening_hours) ∧
    (searchAnyLit dcDeliveryLits s₁.data = searchAnyLit dcDeliveryLits s₂.data →
      (extract_business_info s₁).delivery_info =
        (extract_business_info s₂).delivery_info) := by
  refine ⟨?_, ?_, ?_, ?_, ?_⟩ <;>
    · intro hEq
      by_cases h₁ : s₁.data = [] <;> by_cases h₂ : s₂.data = [] <;>
        [skip; rw [h₁] at hEq; rw [h₂] at hEq; skip] <;>
        simp_all [extract_business_info, findall_nil, searchAnyLit_nil]

/-- Claim C10 — witness: two texts differing only in an irrelevant word
but agreeing on every pattern's matches receive equal pattern fields. -/
theorem c10_witness :
    (extract_business_info "Hello 100 birr").price =
      (extract_business_info "Howdy 100 birr").price ∧
      (extract_business_info "Hello 100 birr").contact_info =
        (extract_business_info "Howdy 100 birr").contact_info ∧
      (extract_business_info "Hello 100 birr").delivery_info =
        (extract_business_info "Howdy 100 birr").delivery_info :=
  ⟨(c10_amended_independence "Hello 100 birr" "Howdy 100 birr").2.1 (by decide),
   (c10_amended_independence "Hello 100 birr" "Howdy 100 birr").1 (by decide),
   (c10_amended_independence "Hello 100 birr" "Howdy 100 birr").2.2.2.2
     (by decide)⟩

/-- Claim C10 — counterexample to the original claim: removing the
phone-like substring from `"My Shop 0911223344"` changes not only
`contact_info` but also the unrelated `business_name` field, because the
first-line heuristic captures the whole line, phone digits included. -/
theorem c10_counterexample :
    (extract_business_info "My Shop 0911223344").contact_info =
      some "0911223344" ∧
      (extract_business_info "My Shop ").contact_info = none ∧
      (extract_business_info "My Shop 0911223344").business_name =
        some "My Shop 0911223344" ∧
      (extract_business_info "My Shop ").business_name = some "My Shop" ∧
      ((some "My Shop 0911223344" : Option String) == some "My Shop")
        = false := by
  decide

theorem namesLoop_fst_some :
    ∀ (lines : List (List Char)) (b : List Char) (pn : Option (List Char)),
      (namesLoop lines (some b) pn).1 = some b := by
  intro lines
  induction lines with
  | nil => intro b pn; rfl
  | cons line rest ih =>
    intro b pn
    simp only [namesLoop]
    split
    · split
      · simp_all
      · split
        · exact ih b _
        · exact ih b _
    · exact ih b _

theorem namesLoop_fst (lines : List (List Char)) :
    ∀ pn, (namesLoop lines none pn).1 =
      (lines.map pstrip).find? (fun l => lineQual l && hasAlpha l) := by
  induction lines with
  | nil => intro pn; rfl
  | cons line rest ih =>
    intro pn
    simp only [namesLoop, List.map_cons, List.find?_cons]
    by_cases hq : lineQual (pstrip line)
    · by_cases ha : hasAlpha (pstrip line)
      · simp only [hq, ha, if_true, Option.isNone_none, Bool.true_and,
          Bool.and_self]
        exact namesLoop_fst_some rest _ pn
      · simp only [hq, ha, if_true, Option.isNone_none, Bool.true_and,
          Bool.and_false, Bool.false_eq_true, if_false]
        split
        · exact ih _
        · exact ih _
    · simp only [hq, Bool.false_eq_true, if_false, Bool.false_and]
      exact ih _

theorem namesLoop_snd_mem :
    ∀ (lines : List (List Char)) (bn pn : Option (List Char))
      (p : List Char), (namesLoop lines bn pn).2 = some p →
      pn = some p ∨ (p ∈ lines.map pstrip ∧ lineQual p = true) := by
  intro lines
  induction lines with
  | nil => intro bn pn p h; exact Or.inl h
  | cons line rest ih =>
    intro bn pn p h
    simp only [namesLoop] at h
    by_cases hq : lineQual (pstrip line)
    · rw [if_pos hq] at h
      split at h
      · rcases ih _ _ _ h with h' | ⟨hm, hq'⟩
        · exact Or.inl h'
        · exact Or.inr ⟨List.mem_cons_of_mem _ hm, hq'⟩
      · split at h
        · rcases ih _ _ _ h with h' | ⟨hm, hq'⟩
          · rcases h' with ⟨rfl⟩
            exact Or.inr ⟨by simp, hq⟩
          · exact Or.inr ⟨List.mem_cons_of_mem _ hm, hq'⟩
        · rcases ih _ _ _ h with h' | ⟨hm, hq'⟩
          · exact Or.inl h'
          · exact Or.inr ⟨List.mem_cons_of_mem _ hm, hq'⟩
    · rw [if_neg hq] at h
      rcases ih _ _ _ h with h' | ⟨hm, hq'⟩
      · exact Or.inl h'
      · exact Or.inr ⟨List.mem_cons_of_mem _ hm, hq'⟩

theorem namesLoop_diff :
    ∀ (lines : List (List Char)) (bn pn : Option (List Char)),
      (∀ b q, bn = some b → pn = some q → b ≠ q) →
      (bn = none → ∀ q, pn = some q → hasAlpha q = false) →
      ∀ b p, (namesLoop lines bn pn).1 = some b →
        (namesLoop lines bn pn).2 = some p → b ≠ p := by
  intro lines
  induction lines with
  | nil =>
    intro bn pn inv1 _ b p h1 h2
    exact inv1 b p h1 h2
  | cons line rest ih =>
    intro bn pn inv1 inv2 b p h1 h2
    simp only [namesLoop] at h1 h2
    by_cases hq : lineQual (pstrip line)
    · rw [if_pos hq] at h1 h2
      by_cases hcond : bn.isNone && hasAlpha (pstrip line)
      · rw [if_pos hcond] at h1 h2
        have hbn : bn = none := by
          rcases (Bool.and_eq_true _ _).mp hcond with ⟨h', _⟩
          exact Option.isNone_iff_eq_none.mp h'
        have ha : hasAlpha (pstrip line) = true :=
          ((Bool.and_eq_true _ _).mp hcond).2
        refine ih _ _ ?_ ?_ b p h1 h2
        · intro b' q hb' hq'
          have hb2 : pstrip line = b' := by injection hb'
          subst hb2
          intro hbq
          subst hbq
          have := inv2 hbn _ hq'
          rw [this] at ha
          simp at ha
        · intro hnone
          cases hnone
      · rw [if_neg hcond] at h1 h2
        by_cases hcond2 : pn.isNone && decide (bn ≠ some (pstrip line))
        · rw [if_pos hcond2] at h1 h2
          have hbn : bn ≠ some (pstrip line) :=
            of_decide_eq_true ((Bool.and_eq_true _ _).mp hcond2).2
          refine ih _ _ ?_ ?_ b p h1 h2
          · intro b' q hb' hq'
            have hq2 : pstrip line = q := by injection hq'
            subst hq2
            intro hbq
            subst hbq
            exact hbn hb'
          · intro hnone q hq'
            have hq2 : pstrip line = q := by injection hq'
            subst hq2
            subst hnone
            by_contra hcontra
            exact hcond (by simp [eq_true_of_ne_false hcontra])
        · rw [if_neg hcond2] at h1 h2
          exact ih _ _ inv1 inv2 b p h1 h2
    · rw [if_neg hq] at h1 h2
      exact ih _ _ inv1 inv2 b p h1 h2

theorem obOr_none_right (a : Option (List Char)) : obOr a none = a := by
  cases a <;> rfl

theorem bnAt_zero (L : List (List Char)) : bnAt L 0 = none := rfl

theorem bnAt_succ_cons (l : List Char) (rest : List (List Char)) (i : Nat) :
    bnAt (l :: rest) (i + 1) =
      if lineQual l && hasAlpha l then some l else bnAt rest i := by
  by_cases hq : (lineQual l && hasAlpha l) = true
  · simp [bnAt, List.take_succ_cons, List.find?_cons_of_pos _ hq, hq]
  · simp [bnAt, List.take_succ_cons, List.find?_cons_of_neg _ hq, hq]

theorem prodFiresFrom_zero_cons (bn : Option (List Char)) (l : List Char)
    (rest : List (List Char)) :
    prodFiresFrom bn (l :: rest) 0 =
      (lineQual l &&
        (match bn with
         | none => !hasAlpha l
         | some b => b != l)) := by
  cases bn <;> simp [prodFiresFrom, bnAt_zero, obOr]

theorem prodFiresFrom_succ_cons (bn : Option (List Char)) (l : List Char)
    (rest : List (List Char)) (i : Nat) :
    prodFiresFrom bn (l :: rest) (i + 1) =
      prodFiresFrom
        (obOr bn (if lineQual l && hasAlpha l then some l else none))
        rest i := by
  cases hL : rest[i]? <;> cases bn <;>
    by_cases hq : (lineQual l && hasAlpha l) = true <;>
      simp [prodFiresFrom, obOr, bnAt_succ_cons, hq, hL,
        List.getElem?_cons_succ]

theorem forall_fires_cons_iff {bn : Option (List Char)} {l : List Char}
    {rest : List (List Char)}
    (h0 : prodFiresFrom bn (l :: rest) 0 = false) :
    (∀ i, prodFiresFrom bn (l :: rest) i = false) ↔
      (∀ i, prodFiresFrom
        (obOr bn (if lineQual l && hasAlpha l then some l else none))
        rest i = false) := by
  constructor
  · intro h i
    have := h (i + 1)
    rwa [prodFiresFrom_succ_cons] at this
  · intro h i
    cases i with
    | zero => exact h0
    | succ i =>
      rw [prodFiresFrom_succ_cons]
      exact h i

theorem namesLoop_snd_some :
    ∀ (L : List (List Char)) (bn : Option (List Char)) (p : List Char),
      (namesLoop L bn (some p)).2 = some p := by
  intro L
  induction L with
  | nil => intro bn p; rfl
  | cons l rest ih =>
    intro bn p
    simp only [namesLoop, Option.isNone_some, Bool.false_and,
      Bool.false_eq_true, if_false]
    split
    · split
      · exact ih _ _
      · exact ih _ _
    · exact ih _ _

theorem namesLoop_map_pstrip :
    ∀ (lines : List (List Char)) (bn pn : Option (List Char)),
      namesLoop (lines.map pstrip) bn pn = namesLoop lines bn pn := by
  intro lines
  induction lines with
  | nil => intro bn pn; rfl
  | cons l rest ih =>
    intro bn pn
    simp only [List.map_cons, namesLoop, pstrip_idem]
    split
    · split
      · exact ih _ _
      · split
        · exact ih _ _
        · exact ih _ _
    · exact ih _ _

theorem namesLoop_snd_none_iff :
    ∀ (L : List (List Char)) (bn : Option (List Char)),
      (∀ l ∈ L, pstrip l = l) →
      ((namesLoop L bn none).2 = none ↔
        ∀ i, prodFiresFrom bn L i = false) := by
  intro L
  induction L with
  | nil =>
    intro bn _
    constructor
    · intro _ i
      simp [prodFiresFrom]
    · intro _
      rfl
  | cons l rest ih =>
    intro bn hfl
    have hl : pstrip l = l := hfl l (List.mem_cons_self _ _)
    have hfl' : ∀ x ∈ rest, pstrip x = x :=
      fun x hx => hfl x (List.mem_cons_of_mem _ hx)
    simp only [namesLoop, hl, Option.isNone_none, Bool.true_and]
    by_cases hq : lineQual l = true
    · rw [if_pos hq]
      by_cases hb1 : (bn.isNone && hasAlpha l) = true
      · rw [if_pos hb1]
        have hbn : bn = none :=
          Option.isNone_iff_eq_none.mp ((Bool.and_eq_true _ _).mp hb1).1
        subst hbn
        have ha : hasAlpha l = true := ((Bool.and_eq_true _ _).mp hb1).2
        have h0 : prodFiresFrom none (l :: rest) 0 = false := by
          rw [prodFiresFrom_zero_cons]
          simp [ha]
        have htr := forall_fires_cons_iff h0
        simp only [hq, ha, Bool.and_self, if_true, obOr] at htr
        rw [ih (some l) hfl']
        exact htr.symm
      · rw [if_neg hb1]
        by_cases hb2 : bn = some l
        · rw [if_neg (by simp [hb2])]
          subst hb2
          have h0 : prodFiresFrom (some l) (l :: rest) 0 = false := by
            rw [prodFiresFrom_zero_cons]
            simp
          have htr := forall_fires_cons_iff h0
          simp only [obOr] at htr
          rw [ih (some l) hfl']
          exact htr.symm
        · rw [if_pos (by simp [hb2])]
          rw [namesLoop_snd_some]
          have h0 : prodFiresFrom bn (l :: rest) 0 = true := by
            rw [prodFiresFrom_zero_cons]
            cases hbn : bn with
            | none =>
              have ha : hasAlpha l = false := by
                rw [hbn] at hb1
                simpa using hb1
              simp [hq, ha]
            | some b =>
              have hbne : b ≠ l := fun hbl => hb2 (by rw [hbn, hbl])
              simp [hq, bne_iff_ne, hbne]
          constructor
          · intro hcon
            exact absurd hcon (Option.some_ne_none l)
          · intro hall2
            have := hall2 0
            rw [h0] at this
            cases this
    · rw [if_neg hq]
      have hq' : lineQual l = false := eq_false_of_ne_true hq
      have h0 : prodFiresFrom bn (l :: rest) 0 = false := by
        rw [prodFiresFrom_zero_cons]
        simp [hq']
      have htr := forall_fires_cons_iff h0
      simp only [hq', Bool.false_and, Bool.false_eq_true, if_false,
        obOr_none_right] at htr
      rw [ih bn hfl']
      exact htr.symm

theorem namesLoop_snd_first :
    ∀ (L : List (List Char)) (bn : Option (List Char)),
      (∀ l ∈ L, pstrip l = l) →
      ∀ i, prodFiresFrom bn L i = true →
        (∀ j, j < i → prodFiresFrom bn L j = false) →
        (namesLoop L bn none).2 = L[i]? := by
  intro L
  induction L with
  | nil =>
    intro bn _ i hf _
    simp [prodFiresFrom] at hf
  | cons l rest ih =>
    intro bn hfl i hf hmin
    have hl : pstrip l = l := hfl l (List.mem_cons_self _ _)
    have hfl' : ∀ x ∈ rest, pstrip x = x :=
      fun x hx => hfl x (List.mem_cons_of_mem _ hx)
    simp only [namesLoop, hl, Option.isNone_none, Bool.true_and]
    by_cases hq : lineQual l = true
    · rw [if_pos hq]
      by_cases hb1 : (bn.isNone && hasAlpha l) = true
      · rw [if_pos hb1]
        have hbn : bn = none :=
          Option.isNone_iff_eq_none.mp ((Bool.and_eq_true _ _).mp hb1).1
        have ha : hasAlpha l = true := ((Bool.and_eq_true _ _).mp hb1).2
        have h0 : prodFiresFrom bn (l :: rest) 0 = false := by
          rw [prodFiresFrom_zero_cons, hbn]
          simp [ha]
        cases i with
        | zero =>
          rw [h0] at hf
          cases hf
        | succ i =>
          have hbn' : obOr bn
              (if lineQual l && hasAlpha l then some l else none) = some l := by
            rw [hbn]
            simp [hq, ha, obOr]
          rw [prodFiresFrom_succ_cons, hbn'] at hf
          have hmin' : ∀ j, j < i → prodFiresFrom (some l) rest j = false := by
            intro j hj
            have := hmin (j + 1) (Nat.succ_lt_succ hj)
            rwa [prodFiresFrom_succ_cons, hbn'] at this
          rw [List.getElem?_cons_succ]
          exact ih (some l) hfl' i hf hmin'
      · rw [if_neg hb1]
        by_cases hb2 : bn = some l
        · rw [if_neg (by simp [hb2])]
          subst hb2
          have h0 : prodFiresFrom (some l) (l :: rest) 0 = false := by
            rw [prodFiresFrom_zero_cons]
            simp
          cases i with
          | zero =>
            rw [h0] at hf
            cases hf
          | succ i =>
            have hbn' : obOr (some l)
                (if lineQual l && hasAlpha l then some l else none) = some l := by
              simp [obOr]
            rw [prodFiresFrom_succ_cons, hbn'] at hf
            have hmin' : ∀ j, j < i → prodFiresFrom (some l) rest j = false := by
              intro j hj
              have := hmin (j + 1) (Nat.succ_lt_succ hj)
              rwa [prodFiresFrom_succ_cons, hbn'] at this
            rw [List.getElem?_cons_succ]
            exact ih (some l) hfl' i hf hmin'
        · rw [if_pos (by simp [hb2])]
          have h0 : prodFiresFrom bn (l :: rest) 0 = true := by
            rw [prodFiresFrom_zero_cons]
            cases hbn : bn with
            | none =>
              have ha : hasAlpha l = false := by
                rw [hbn] at hb1
                simpa using hb1
              simp [hq, ha]
            | some b =>
              have hbne : b ≠ l := fun hbl => hb2 (by rw [hbn, hbl])
              simp [hq, bne_iff_ne, hbne]
          cases i with
          | zero =>
            rw [namesLoop_snd_some]
            simp
          | succ i =>
            have := hmin 0 (Nat.succ_pos i)
            rw [h0] at this
            cases this
    · rw [if_neg hq]
      have hq' : lineQual l = false := eq_false_of_ne_true hq
      have h0 : prodFiresFrom bn (l :: rest) 0 = false := by
        rw [prodFiresFrom_zero_cons]
        simp [hq']
      cases i with
      | zero =>
        rw [h0] at hf
        cases hf
      | succ i =>
        have hbn' : obOr bn
            (if lineQual l && hasAlpha l then some l else none) = bn := by
          simp [hq', obOr_none_right]
        rw [prodFiresFrom_succ_cons, hbn'] at hf
        have hmin' : ∀ j, j < i → prodFiresFrom bn rest j = false := by
          intro j hj
          have := hmin (j + 1) (Nat.succ_lt_succ hj)
          rwa [prodFiresFrom_succ_cons, hbn'] at this
        rw [List.getElem?_cons_succ]
        exact ih bn hfl' i hf hmin'

theorem mem_nameLines_pstrip {t : List Char} {l : List Char}
    (h : l ∈ nameLines t) : pstrip l = l := by
  rcases List.mem_map.mp h with ⟨x, _, rfl⟩
  exact pstrip_idem x

/-- Claim C3 — corrected form.  Within the stripped first three lines,
`business_name` is the first line of length 6-99 that contains a letter;
`product_name` is assigned by the rule the loop actually implements: it
holds exactly the line at the first position where the product branch
fires — a line of qualified length that the business branch does not
claim, i.e. one differing from the business_name value current at its
turn, or (while business_name is still unset) one without a letter — and
it is null exactly when no position fires.  `product_name` therefore has
no letter requirement and does not imply a non-null `business_name` (see
`c3_counterexample`); when both fields are set they are textually
different. -/
theorem c3_amended_names (s : String) :
    (extract_business_info s).business_name =
      ((nameLines s.data).find?
        (fun l => lineQual l && hasAlpha l)).map String.mk ∧
    (∀ p : String, (extract_business_info s).product_name = some p →
      p.data ∈ nameLines s.data ∧ lineQual p.data = true) ∧
    ((extract_business_info s).product_name = none ↔
      ∀ i, prodFires (nameLines s.data) i = false) ∧
    (∀ i, prodFires (nameLines s.data) i = true →
      (∀ j, j < i → prodFires (nameLines s.data) j = false) →
      (extract_business_info s).product_name =
        ((nameLines s.data)[i]?).map String.mk) ∧
    (∀ b p : String, (extract_business_info s).business_name = some b →
      (extract_business_info s).product_name = some p → b ≠ p) := by
  by_cases h : s.data = []
  · have hnone : ∀ i, prodFires (nameLines ([] : List Char)) i = false := by
      intro i
      cases i with
      | zero => decide
      | succ n => simp [prodFires, prodFiresFrom, nameLines, splitOnChar]
    rw [h]
    refine ⟨?_, ?_, ?_, ?_, ?_⟩
    · simp [extract_business_info, h]
      decide
    · intro p hp
      simp [extract_business_info, h] at hp
    · constructor
      · intro _
        exact hnone
      · intro _
        simp [extract_business_info, h]
    · intro i hf _
      rw [hnone i] at hf
      cases hf
    · intro b p hb _
      simp [extract_business_info, h] at hb
  · have hb : (extract_business_info s).business_name =
        ((extractNames s.data).1).map String.mk := by
      simp [extract_business_info, h]
    have hp : (extract_business_info s).product_name =
        ((extractNames s.data).2).map String.mk := by
      simp [extract_business_info, h]
    have hkey : extractNames s.data =
        namesLoop (nameLines s.data) none none := by
      unfold extractNames nameLines
      rw [namesLoop_map_pstrip]
    have hfix : ∀ l ∈ nameLines s.data, pstrip l = l :=
      fun l hl => mem_nameLines_pstrip hl
    refine ⟨?_, ?_, ?_, ?_, ?_⟩
    · rw [hb]
      unfold extractNames
      rw [namesLoop_fst]
      rfl
    · intro p hpp
      rw [hp] at hpp
      rcases Option.map_eq_some'.mp hpp with ⟨lp, hlp, rfl⟩
      rcases namesLoop_snd_mem _ _ _ _ hlp with h' | ⟨hm, hq⟩
      · cases h'
      · exact ⟨hm, hq⟩
    · rw [hp, hkey, Option.map_eq_none']
      exact namesLoop_snd_none_iff (nameLines s.data) none hfix
    · intro i hf hmin
      rw [hp, hkey,
        namesLoop_snd_first (nameLines s.data) none hfix i hf hmin]
    · intro b p hbb hpp
      rw [hb] at hbb
      rw [hp] at hpp
      rcases Option.map_eq_some'.mp hbb with ⟨lb, hlb, rfl⟩
      rcases Option.map_eq_some'.mp hpp with ⟨lp, hlp, rfl⟩
      have hdiff : lb ≠ lp :=
        namesLoop_diff _ none none (fun _ _ hcon => by cases hcon)
          (fun _ _ hcon => by cases hcon) lb lp hlb hlp
      intro hmk
      exact hdiff (congrArg String.data hmk)

/-- Claim C3 — witness: for `"Addis Shop\n123456"` the product branch
first fires at position 1 (the line `"123456"`, which has no letter but
differs from the current business_name `"Addis Shop"`), and the theorem's
assignment rule yields exactly `product_name = some "123456"`. -/
theorem c3_witness :
    prodFires (nameLines "Addis Shop\n123456".data) 1 = true ∧
      (extract_business_info "Addis Shop\n123456").product_name =
        ((nameLines "Addis Shop\n123456".data)[1]?).map String.mk ∧
      (extract_business_info "Addis Shop\n123456").product_name =
        some "123456" ∧
      ("123456".data ∈ nameLines "Addis Shop\n123456".data ∧
        lineQual "123456".data = true) := by
  have h2 := (c3_amended_names "Addis Shop\n123456").2.2.2.1 1 (by decide)
    (fun j hj => by
      have hj0 : j = 0 := Nat.lt_one_iff.mp hj
      subst hj0
      decide)
  have h4 := (c3_amended_names "Addis Shop\n123456").2.1 "123456" (by decide)
  refine ⟨by decide, h2, ?_, h4⟩
  rw [h2]
  decide

/-- Claim C3 — counterexample to the original claim: on the single line
`"123456"` (length 6, no alphabetic character) the code assigns
`product_name` while `business_name` stays null, because the alphabetic
requirement guards only the `business_name` branch
(data_cleaning.py lines 151-154). -/
theorem c3_counterexample :
    (extract_business_info "123456").product_name = some "123456" ∧
      (extract_business_info "123456").business_name = none ∧
      hasAlpha "123456".data = false := by
  decide

theorem find?_eq_some_split {α : Type} {p : α → Bool} :
    ∀ {l : List α} {a : α}, l.find? p = some a →
      p a = true ∧ ∃ l1 l2, l = l1 ++ a :: l2 ∧ ∀ x ∈ l1, p x = false := by
  intro l
  induction l with
  | nil => intro a h; simp [List.find?] at h
  | cons x rest ih =>
    intro a h
    by_cases px : p x
    · rw [List.find?_cons_of_pos _ px] at h
      injection h with h'
      subst h'
      exact ⟨px, [], rest, rfl, by simp⟩
    · rw [List.find?_cons_of_neg _ px] at h
      obtain ⟨pa, l1, l2, rfl, hl1⟩ := ih h
      refine ⟨pa, x :: l1, l2, rfl, ?_⟩
      intro y hy
      rcases List.mem_cons.mp hy with rfl | hy'
      · simpa using px
      · exact hl1 y hy'

theorem containsSub_of_isPrefixOf {hay pat : List Char}
    (h : pat.isPrefixOf hay = true) : containsSub hay pat = true := by
  cases hay with
  | nil =>
    cases pat with
    | nil => rfl
    | cons a l => simp [List.isPrefixOf] at h
  | cons c t => simp [containsSub, h]

theorem containsSub_cons {c : Char} {t pat : List Char}
    (h : containsSub t pat = true) : containsSub (c :: t) pat = true := by
  simp [containsSub, h]

theorem splitOnChar_ne_nil (sep : Char) (l : List Char) :
    splitOnChar sep l ≠ [] := by
  cases l with
  | nil => simp [splitOnChar]
  | cons c rest =>
    simp only [splitOnChar]
    rcases h : splitOnChar sep rest with _ | ⟨hd, tl⟩
    · simp
    · by_cases hc : c = sep <;> simp [hc]

theorem prefix_lower_headSeg {sep : Char} (hsep : sep.toLower = sep) :
    ∀ (kw : List Char) (l h : List Char) (t : List (List Char)),
      kw.all (fun c => c != sep) = true →
      splitOnChar sep l = h :: t →
      kw.isPrefixOf (lowerL l) = true →
      kw.isPrefixOf (lowerL h) = true := by
  intro kw
  induction kw with
  | nil => intro l h t _ _ _; simp [List.isPrefixOf]
  | cons q ps ih =>
    intro l h t hall hsplit hpre
    cases l with
    | nil => simp [lowerL, List.isPrefixOf] at hpre
    | cons c l' =>
      simp only [lowerL, List.map_cons, List.isPrefixOf,
        Bool.and_eq_true, beq_iff_eq] at hpre
      obtain ⟨hq, hpre'⟩ := hpre
      have hcsep : c ≠ sep := by
        intro hcs
        have h1 : (q != sep) = true :=
          List.all_eq_true.mp hall q (List.mem_cons_self q ps)
        rw [hq, hcs, hsep] at h1
        simp at h1
      rcases hrest : splitOnChar sep l' with _ | ⟨h', t'⟩
      · exact absurd hrest (splitOnChar_ne_nil sep l')
      · simp only [splitOnChar, hrest, if_neg hcsep] at hsplit
        injection hsplit with hh _
        subst hh
        simp only [lowerL, List.map_cons, List.isPrefixOf,
          Bool.and_eq_true, beq_iff_eq]
        refine ⟨hq, ?_⟩
        exact ih l' h' t' (by
          simp only [List.all_cons, Bool.and_eq_true] at hall
          exact hall.2) hrest hpre'

theorem contains_split {sep : Char} (hsep : sep.toLower = sep) :
    ∀ (l : List Char) (kw : List Char), kw ≠ [] →
      kw.all (fun c => c != sep) = true →
      containsSub (lowerL l) kw = true →
      ∃ seg ∈ splitOnChar sep l, containsSub (lowerL seg) kw = true := by
  intro l
  induction l with
  | nil =>
    intro kw hne _ hcont
    simp only [lowerL, List.map_nil, containsSub, List.isEmpty_iff] at hcont
    exact absurd hcont hne
  | cons c l' ih =>
    intro kw hne hall hcont
    simp only [lowerL, List.map_cons, containsSub, Bool.or_eq_true] at hcont
    rcases hrest : splitOnChar sep l' with _ | ⟨h', t'⟩
    · exact absurd hrest (splitOnChar_ne_nil sep l')
    · rcases hcont with hpre | htail
      · have hsplit : splitOnChar sep (c :: l') =
            (splitOnChar sep (c :: l')).headI ::
              (splitOnChar sep (c :: l')).tail := by
          rcases hsp : splitOnChar sep (c :: l') with _ | ⟨a, b⟩
          · exact absurd hsp (splitOnChar_ne_nil sep (c :: l'))
          · rfl
        refine ⟨(splitOnChar sep (c :: l')).headI, ?_, ?_⟩
        · rw [hsplit]
          exact List.mem_cons_self _ _
        · exact containsSub_of_isPrefixOf
            (prefix_lower_headSeg hsep kw (c :: l') _ _ hall hsplit
              (by simpa [lowerL] using hpre))
      · obtain ⟨seg, hmem, hcseg⟩ := ih kw hne hall htail
        rw [hrest] at hmem
        by_cases hc : c = sep
        · refine ⟨seg, ?_, hcseg⟩
          simp only [splitOnChar, hrest, hc, if_pos rfl]
          simp only [if_true]
          exact List.mem_cons_of_mem _ hmem
        · rcases List.mem_cons.mp hmem with rfl | hmem'
          · refine ⟨c :: seg, ?_, ?_⟩
            · simp [splitOnChar, hrest, hc]
            · simpa [lowerL] using containsSub_cons (c := c.toLower) hcseg
          · refine ⟨seg, ?_, hcseg⟩
            simp [splitOnChar, hrest, hc, List.mem_cons_of_mem _ hmem']

/-- Claim C5.  The scraper's delivery extractor returns, whenever some
delivery keyword occurs (case-insensitively) in the text, the first
`'.'`-delimited segment containing the first such keyword (in keyword-list
order), stripped, and null when no keyword occurs; the data-cleaning
variant returns the fixed marker string `"Delivery available"` exactly
when its delivery pattern matches, and null otherwise. -/
theorem c5_delivery_semantics (s : String) :
    (scraperDeliveryKws.find?
        (fun k => containsSub (lowerL s.data) (lowerL k)) = none →
      scraperDelivery s.data = none) ∧
    (∀ k, scraperDeliveryKws.find?
        (fun k => containsSub (lowerL s.data) (lowerL k)) = some k →
      ∃ pre seg post,
        splitOnChar '.' s.data = pre ++ seg :: post ∧
        containsSub (lowerL seg) (lowerL k) = true ∧
        (∀ sg ∈ pre, containsSub (lowerL sg) (lowerL k) = false) ∧
        scraperDelivery s.data = some (pstrip seg)) ∧
    ((extract_business_info s).delivery_info = none ↔
      searchAnyLit dcDeliveryLits s.data = false) ∧
    ((extract_business_info s).delivery_info = none ∨
      (extract_business_info s).delivery_info = some "Delivery available") := by
  refine ⟨?_, ?_, ?_, ?_⟩
  · intro h
    unfold scraperDelivery
    rw [h]
  · intro k hk
    have hkmem := List.mem_of_find?_eq_some hk
    have hcont : containsSub (lowerL s.data) (lowerL k) = true := by
      simpa using List.find?_some hk
    have hkprops : lowerL k ≠ [] ∧ (lowerL k).all (fun c => c != '.') = true := by
      simp only [scraperDeliveryKws, List.mem_cons, List.not_mem_nil,
        or_false] at hkmem
      rcases hkmem with rfl | rfl | rfl | rfl | rfl <;> exact ⟨by decide, by decide⟩
    obtain ⟨seg, hmem, hcseg⟩ :=
      contains_split (by decide) s.data (lowerL k) hkprops.1 hkprops.2 hcont
    have hfs : ((splitOnChar '.' s.data).find?
        (fun sg => containsSub (lowerL sg) (lowerL k))).isSome = true :=
      List.find?_isSome.mpr ⟨seg, hmem, hcseg⟩
    obtain ⟨seg₀, hfind⟩ := Option.isSome_iff_exists.mp hfs
    obtain ⟨hp₀, pre, post, hsplit, hpre⟩ := find?_eq_some_split hfind
    refine ⟨pre, seg₀, post, hsplit, hp₀, hpre, ?_⟩
    unfold scraperDelivery
    rw [hk]
    show (List.find? (fun sg => containsSub (lowerL sg) (lowerL k))
        (splitOnChar '.' s.data)).map pstrip = some (pstrip seg₀)
    rw [hfind]
    rfl
  · by_cases h : s.data = [] <;> by_cases hd : searchAnyLit dcDeliveryLits s.data <;>
      simp_all [extract_business_info, searchAnyLit_nil]
  · by_cases h : s.data = [] <;> by_cases hd : searchAnyLit dcDeliveryLits s.data <;>
      simp_all [extract_business_info, searchAnyLit_nil]

/-- Claim C5 — witness: on `"Fast delivery. Call us."` the keyword
`delivery` is found and the returned sentence is the first segment
containing it. -/
theorem c5_witness :
    ∃ pre seg post,
      splitOnChar '.' "Fast delivery. Call us.".data = pre ++ seg :: post ∧
      containsSub (lowerL seg)
        (lowerL ['d', 'e', 'l', 'i', 'v', 'e', 'r', 'y']) = true ∧
      (∀ sg ∈ pre, containsSub (lowerL sg)
        (lowerL ['d', 'e', 'l', 'i', 'v', 'e', 'r', 'y']) = false) ∧
      scraperDelivery "Fast delivery. Call us.".data = some (pstrip seg) :=
  (c5_delivery_semantics "Fast delivery. Call us.").2.1
    ['d', 'e', 'l', 'i', 'v', 'e', 'r', 'y'] (by decide)

/-- Claim C6 — corrected form.  The message loop of `process_json_file`
emits one record per input message — a malformed (non-string, non-list)
`text` does not abort the batch, but neither is it skipped: its text is
coerced to the empty string, for which the business gate then never
fires; no skipped-error count is maintained. -/
theorem c6_amended_driver (msgs : List Msg) :
    (processMessages msgs).length = msgs.length ∧
      (∀ i n, toRecord ⟨i, MsgText.intText n⟩ = ⟨i, ""⟩) ∧
      saveEmits "" = false :=
  ⟨List.length_map _ _, fun _ _ => rfl, rfl⟩

/-- Claim C6 — counterexample to the original claim: a batch of three
messages whose second has integer `text` yields three records (not two),
the malformed one carrying empty text; nothing is skipped and no
skipped-error count of 1 exists. -/
theorem c6_counterexample :
    processMessages
        [⟨1, MsgText.strText "Paracetamol tablets 100 birr"⟩,
         ⟨2, MsgText.intText 123⟩,
         ⟨3, MsgText.strText "Call 0911223344"⟩] =
      [⟨1, "Paracetamol tablets 100 birr"⟩, ⟨2, ""⟩,
       ⟨3, "Call 0911223344"⟩] ∧
      (processMessages
        [⟨1, MsgText.strText "Paracetamol tablets 100 birr"⟩,
         ⟨2, MsgText.intText 123⟩,
         ⟨3, MsgText.strText "Call 0911223344"⟩]).length = 3 := by
  decide

/-- Claim C9 — corrected form.  The extractors return normally on every
falsy value (`None`, `''`, `0`) and on every string, representing absent
matches as null; but a truthy non-string value reaches the regex engine
and raises (`TypeError` in `extract_business_info`, `AttributeError` at
`text.strip()` in `clean_text`) — see `c9_counterexample`. -/
theorem c9_amended_total (s : String) :
    extract_business_info_py (PyVal.pystr s) =
      Except.ok (extract_business_info s) ∧
      extract_business_info_py PyVal.pynone = Except.ok {} ∧
      extract_business_info_py (PyVal.pyint 0) = Except.ok {} ∧
      clean_text_py (PyVal.pystr s) = Except.ok (clean_text s) ∧
      extract_business_info "" = {} ∧ clean_text "" = "" := by
  refine ⟨?_, rfl, rfl, ?_, rfl, rfl⟩
  · by_cases h : s.data = [] <;>
      simp [extract_business_info_py, pyFalsy, h, List.isEmpty_iff,
        extract_business_info]
  · by_cases h : s.data = [] <;>
      simp [clean_text_py, pyFalsy, h, List.isEmpty_iff, clean_text]

/-- Claim C9 — counterexample to the original claim: the truthy
non-string value `1` raises instead of returning null fields. -/
theorem c9_counterexample :
    extract_business_info_py (PyVal.pyint 1) = Except.error PyErr.typeError ∧
      clean_text_py (PyVal.pyint 1) = Except.error PyErr.attributeError :=
  ⟨rfl, rfl⟩

end Kara
